import Mathlib

/-!
# Verification of the agentic molecule-screening pipeline

A shallow embedding of the iterative candidate-optimization engine of the
repository (orchestrator `app/runner/pipeline.py`, generator
`app/agents/generator.py`, ranker `app/agents/ranker.py`, admission filter
`app/screening/rules.py`) together with theorems settling the spec's claims.

Modelling conventions:
* Python floats are modelled as exact rationals (`ℚ`); `round(x, 4)` is
  modelled by `round4` (round half to even, as Python's `round` does).
* Python dicts of molecular descriptors are modelled as association lists
  `List (String × ℚ)` with first-match lookup (`dictGet`), which matches
  `dict.get` on dicts with unique keys.
* `random.choice` is modelled by an explicit random tape `rng : ℕ → ℕ`
  together with a counter `t` threaded through the computation; the call at
  time `t` picks index `rng t % len(xs)`.  `random.choice` on an empty
  sequence raises in Python; where that is reachable the model returns
  `none`.
* A Python exception escaping a computation is modelled by
  `Except.error msg`; the oracle (chemistry tool) is a parameter of type
  `String → Except String OracleOut`, so both a raising oracle and an
  oracle that reports invalidity as a return value can be studied.
* All recursion is structural (the Python `while` loops carry explicit
  attempt bounds, which become fuel), so every definition evaluates inside
  the kernel.
-/

/-- First-match lookup in an association list: the model of `dict.get(key)`
(`None` when the key is absent). -/
def dictGet (key : String) : List (String × ℚ) → Option ℚ
  | [] => none
  | (k, v) :: rest => if key = k then some v else dictGet key rest

/-- Round a rational to the nearest integer, ties to even: the rounding mode
of Python's builtin `round`. -/
def pyRound (q : ℚ) : ℤ :=
  let f := Rat.floor q
  if q - f < 1/2 then f
  else if (1 : ℚ)/2 < q - f then f + 1
  else if f % 2 = 0 then f else f + 1

/-- `round(x, 4)` from the source, on exact rationals. -/
def round4 (q : ℚ) : ℚ := (pyRound (q * 10000) : ℚ) / 10000

/-- Result of `MoleculeScreening.screen` (`app/screening/rules.py`). -/
structure ScreenResult where
  passed : Bool
  violations : ℕ
  violated_rules : List String
deriving DecidableEq, Repr

/-- Result of `MoleculeScreening.evaluate_molecule`. -/
structure EvalResult where
  screening_result : ScreenResult
  score : ℚ
deriving DecidableEq, Repr

namespace MoleculeScreening

/-- The fixed rule table `MoleculeScreening.RULES`: key, upper bound, name,
in the dict's insertion order (Python dicts preserve insertion order). -/
def RULES : List (String × ℚ × String) :=
  [("mw", (500, "Molecular Weight <= 500")),
   ("logp", (5, "LogP <= 5")),
   ("hbd", (5, "H-Bond Donors <= 5")),
   ("hba", (10, "H-Bond Acceptors <= 10")),
   ("tpsa", (140, "TPSA <= 140"))]

/-- The loop body of `screen`: for each rule in order, a missing descriptor
is skipped, and the rule's name is recorded when the value strictly exceeds
the bound (`if max_val and value > max_val`, where `max_val and …` is
Python truthiness on the bound). -/
def screenViolatedNames (properties : List (String × ℚ)) : List String :=
  RULES.filterMap fun rule =>
    match dictGet rule.1 properties with
    | none => none
    | some value => if rule.2.1 ≠ (0 : ℚ) ∧ rule.2.1 < value then some rule.2.2 else none

/-- `MoleculeScreening.screen`: violation names, their count, and
`passed = (violations <= max_violations)`. -/
def screen (max_violations : ℕ) (properties : List (String × ℚ)) : ScreenResult :=
  let violations := screenViolatedNames properties
  { passed := decide (violations.length ≤ max_violations),
    violations := violations.length,
    violated_rules := violations }

/-- `MoleculeScreening.score`: `round(qed - penalty * violations, 4)` with
`qed = properties.get("qed", 0.0)`. -/
def score (properties : List (String × ℚ)) (screening_result : ScreenResult)
    (penalty : ℚ) : ℚ :=
  let qed := (dictGet "qed" properties).getD 0
  let violations := screening_result.violations
  round4 (qed - penalty * violations)

/-- `MoleculeScreening.evaluate_molecule`: screening followed by scoring. -/
def evaluate_molecule (max_violations : ℕ) (properties : List (String × ℚ))
    (penalty : ℚ) : EvalResult :=
  let screening_result := screen max_violations properties
  { screening_result := screening_result,
    score := score properties screening_result penalty }

end MoleculeScreening

/-- The violation names computed by the screening loop are exactly the names
of the rules (in table order) whose descriptor is present and strictly above
the bound, for any rule table whose bounds are nonzero (so Python's
truthiness test on the bound never masks a rule). -/
theorem screenViolatedNames_eq_filter (properties : List (String × ℚ))
    (l : List (String × ℚ × String)) (hl : ∀ r ∈ l, r.2.1 ≠ (0 : ℚ)) :
    (l.filterMap fun rule =>
        match dictGet rule.1 properties with
        | none => none
        | some value => if rule.2.1 ≠ (0 : ℚ) ∧ rule.2.1 < value then some rule.2.2 else none)
      = (l.filter fun rule =>
          match dictGet rule.1 properties with
          | none => false
          | some value => decide (rule.2.1 < value)).map (fun rule => rule.2.2) := by
  induction l with
  | nil => rfl
  | cons r rest ih =>
    have hr : r.2.1 ≠ (0 : ℚ) := hl r (by simp)
    have hrest : ∀ x ∈ rest, x.2.1 ≠ (0 : ℚ) := fun x hx => hl x (by simp [hx])
    simp only [List.filterMap_cons, List.filter_cons]
    cases hd : dictGet r.1 properties with
    | none => simpa using ih hrest
    | some value =>
      by_cases hv : r.2.1 < value
      · simp [hr, hv, ih hrest]
      · simp [hr, hv, ih hrest]

/-- C2: for every descriptor mapping (with `qed`, the base drug-likeness
descriptor, defaulting to `0.0` when absent), every screening result
carrying a violation count, and every penalty, `MoleculeScreening.score`
returns exactly `round(qed - penalty * violations, 4)`; in particular the
fixed-point edge case `qed = 0.55`, `penalty = 0.1`, `violations = 1`
yields exactly `0.45`. -/
theorem score_is_rounded_formula :
    (∀ (properties : List (String × ℚ)) (sr : ScreenResult) (p : ℚ),
        MoleculeScreening.score properties sr p
          = round4 ((dictGet "qed" properties).getD 0 - p * (sr.violations : ℚ))) ∧
    MoleculeScreening.score [("qed", 0.55)]
        { passed := true, violations := 1, violated_rules := [] } 0.1 = 0.45 :=
  ⟨fun _ _ _ => rfl, by with_unfolding_all decide⟩

/-- C3: for every descriptor mapping, `MoleculeScreening.screen` counts
exactly the rules of the fixed five-entry table whose descriptor is present
and strictly exceeds its bound (an absent descriptor is skipped, never
counted), `passed` holds iff the count is at most `max_violations`, and
`violated_rules` lists the violated rules' names in the table's insertion
order; `screen` is a pure function, hence deterministic on identical
input. -/
theorem screen_counts_strict_violations (properties : List (String × ℚ)) (mv : ℕ) :
    (MoleculeScreening.screen mv properties).violations
        = (MoleculeScreening.RULES.filter fun rule =>
            match dictGet rule.1 properties with
            | none => false
            | some value => decide (rule.2.1 < value)).length ∧
    ((MoleculeScreening.screen mv properties).passed = true
        ↔ (MoleculeScreening.screen mv properties).violations ≤ mv) ∧
    (MoleculeScreening.screen mv properties).violated_rules
        = ((MoleculeScreening.RULES.filter fun rule =>
            match dictGet rule.1 properties with
            | none => false
            | some value => decide (rule.2.1 < value)).map fun rule => rule.2.2) := by
  have hZ : ∀ r ∈ MoleculeScreening.RULES, r.2.1 ≠ (0 : ℚ) := by decide
  have h := screenViolatedNames_eq_filter properties MoleculeScreening.RULES hZ
  refine ⟨?_, ?_, ?_⟩
  · calc (MoleculeScreening.screen mv properties).violations
        = ((MoleculeScreening.RULES.filter fun rule =>
            match dictGet rule.1 properties with
            | none => false
            | some value => decide (rule.2.1 < value)).map fun rule => rule.2.2).length :=
          congrArg List.length h
      _ = _ := List.length_map _ _
  · simp [MoleculeScreening.screen]
  · exact h

/-- One molecule record (`mol_data` in `AgenticPipeline.run`, the dict the
ranker and the persistence layer handle): structure string, validity flag,
round of origin, descriptors, screening result, score, and the global rank
assigned at the end of a run (`none` until then). -/
structure Mol where
  smiles : String
  valid : Bool
  round : ℕ
  properties : List (String × ℚ)
  screening_result : ScreenResult
  score : ℚ
  rank : Option ℕ
deriving DecidableEq, Repr

namespace RankerAgent

/-- `RankerAgent._calculate_score`: `round(qed - penalty * violations, 4)`
with `qed = molecule["properties"].get("qed", 0.0)` and
`violations = molecule["screening_result"].get("violations", 0)`. -/
def calculate_score (molecule : Mol) (penalty : ℚ) : ℚ :=
  let qed := (dictGet "qed" molecule.properties).getD 0
  let violations := molecule.screening_result.violations
  round4 (qed - penalty * violations)

/-- `mol_copy = mol.copy(); mol_copy["score"] = self._calculate_score(...)`. -/
def copyWithScore (penalty : ℚ) (mol : Mol) : Mol :=
  { mol with score := calculate_score mol penalty }

end RankerAgent

/-- Stable descending insertion step: the new element `x` (earlier in the
input than everything already inserted) goes before the first element whose
score is `≤` its own, hence before every element of equal score. -/
def insertDesc (x : Mol) : List Mol → List Mol
  | [] => [x]
  | y :: ys => if y.score ≤ x.score then x :: y :: ys else y :: insertDesc x ys

/-- Model of Python's `sorted(mols, key=lambda m: m["score"], reverse=True)`:
a stable descending sort by score.  Python's `sorted` is specified as stable,
and a stable sort is uniquely determined by its order and key, so this
insertion sort is observationally the source's timsort; the characterizing
properties (permutation, sortedness, stability) are proved below. -/
def pySortDesc : List Mol → List Mol
  | [] => []
  | x :: xs => insertDesc x (pySortDesc xs)

namespace RankerAgent

/-- `RankerAgent.act`: re-score every molecule, sort by score descending
(stable), return the full ranking and its `top_k` prefix. -/
def act (molecules : List Mol) (scoring_penalty : ℚ) (top_k : ℕ) :
    List Mol × List Mol :=
  let scored_molecules := molecules.map (copyWithScore scoring_penalty)
  let ranked := pySortDesc scored_molecules
  (ranked, ranked.take top_k)

end RankerAgent

theorem insertDesc_perm (x : Mol) (l : List Mol) :
    List.Perm (insertDesc x l) (x :: l) := by
  induction l with
  | nil => exact List.Perm.refl _
  | cons y ys ih =>
    by_cases h : y.score ≤ x.score
    · simp [insertDesc, h]
    · simp only [insertDesc, if_neg h]
      exact (ih.cons y).trans (List.Perm.swap x y ys)

theorem pySortDesc_perm (l : List Mol) : List.Perm (pySortDesc l) l := by
  induction l with
  | nil => exact List.Perm.refl _
  | cons x xs ih => exact (insertDesc_perm x (pySortDesc xs)).trans (ih.cons x)

theorem insertDesc_pairwise (x : Mol) (l : List Mol)
    (h : List.Pairwise (fun a b => b.score ≤ a.score) l) :
    List.Pairwise (fun a b => b.score ≤ a.score) (insertDesc x l) := by
  induction l with
  | nil => simp [insertDesc]
  | cons y ys ih =>
    rcases List.pairwise_cons.mp h with ⟨hy, hys⟩
    by_cases hcmp : y.score ≤ x.score
    · simp only [insertDesc, if_pos hcmp]
      refine List.pairwise_cons.mpr ⟨?_, h⟩
      intro b hb
      rcases List.mem_cons.mp hb with hb | hb
      · exact hb ▸ hcmp
      · exact (hy b hb).trans hcmp
    · simp only [insertDesc, if_neg hcmp]
      refine List.pairwise_cons.mpr ⟨?_, ih hys⟩
      intro b hb
      rcases List.mem_cons.mp ((insertDesc_perm x ys).mem_iff.mp hb) with hb | hb
      · exact hb ▸ (not_le.mp hcmp).le
      · exact hy b hb

theorem pySortDesc_pairwise (l : List Mol) :
    List.Pairwise (fun a b => b.score ≤ a.score) (pySortDesc l) := by
  induction l with
  | nil => simp [pySortDesc]
  | cons x xs ih => exact insertDesc_pairwise x (pySortDesc xs) ih

theorem insertDesc_filter_score (x : Mol) (l : List Mol) (c : ℚ) :
    (insertDesc x l).filter (fun m => decide (m.score = c))
      = if x.score = c
        then x :: l.filter (fun m => decide (m.score = c))
        else l.filter (fun m => decide (m.score = c)) := by
  induction l with
  | nil => by_cases hx : x.score = c <;> simp [insertDesc, hx]
  | cons y ys ih =>
    by_cases hcmp : y.score ≤ x.score
    · simp only [insertDesc, if_pos hcmp, List.filter_cons]
      by_cases hx : x.score = c <;> simp [hx]
    · simp only [insertDesc, if_neg hcmp, List.filter_cons, ih]
      by_cases hy : y.score = c
      · have hx : ¬ x.score = c := fun hxeq => hcmp (le_of_eq (hy.trans hxeq.symm))
        simp [hy, hx]
      · by_cases hx : x.score = c <;> simp [hy, hx]

theorem pySortDesc_filter_score (l : List Mol) (c : ℚ) :
    (pySortDesc l).filter (fun m => decide (m.score = c))
      = l.filter (fun m => decide (m.score = c)) := by
  induction l with
  | nil => rfl
  | cons x xs ih =>
    simp only [pySortDesc, insertDesc_filter_score, ih, List.filter_cons]
    by_cases hx : x.score = c <;> simp [hx]

theorem take_eq_take_min {α : Type} (l : List α) (k : ℕ) :
    l.take k = l.take (min k l.length) := by
  induction l generalizing k with
  | nil => simp
  | cons a l ih =>
    cases k with
    | zero => simp
    | succ k =>
      rw [List.take_succ_cons, List.length_cons, Nat.succ_min_succ,
        List.take_succ_cons, ih]

/-- C5: for every input list, penalty and `top_k`, the ranker's full output
is a permutation of the re-scored input, sorted by score descending, where
molecules of equal score keep their relative input order (stability, stated
per score class), and the elite output is exactly the prefix
`all[:min(topK, len(all))]` of the full ranking. -/
theorem ranker_stable_sort_and_elite_take (molecules : List Mol)
    (scoring_penalty : ℚ) (top_k : ℕ) :
    List.Perm (RankerAgent.act molecules scoring_penalty top_k).1
      (molecules.map (RankerAgent.copyWithScore scoring_penalty)) ∧
    List.Pairwise (fun a b => b.score ≤ a.score)
      (RankerAgent.act molecules scoring_penalty top_k).1 ∧
    (∀ c : ℚ,
      ((RankerAgent.act molecules scoring_penalty top_k).1.filter
          fun m => decide (m.score = c))
        = ((molecules.map (RankerAgent.copyWithScore scoring_penalty)).filter
            fun m => decide (m.score = c))) ∧
    (RankerAgent.act molecules scoring_penalty top_k).2
      = (RankerAgent.act molecules scoring_penalty top_k).1.take
          (min top_k (RankerAgent.act molecules scoring_penalty top_k).1.length) :=
  ⟨pySortDesc_perm _, pySortDesc_pairwise _,
    fun c => pySortDesc_filter_score _ c, take_eq_take_min _ _⟩

namespace GeneratorAgent

/-- `GeneratorAgent.BASE_MOLECULES`: the fixed base corpus. -/
def BASE_MOLECULES : List String :=
  ["CC(C)Cc1ccc(cc1)C(C)C(O)=O",
   "CC(=O)Oc1ccccc1C(O)=O",
   "CN1C=NC2=C1C(=O)N(C(=O)N2C)C",
   "c1ccc(cc1)C(=O)O",
   "c1ccccc1",
   "CC(C)NCC(COc1ccccc1)O",
   "Cc1ccc(cc1)S(=O)(=O)N",
   "CCN(CC)CCNC(=O)c1cc(ccc1OC)N"]

/-- `GeneratorAgent.MUTATIONS`: the fixed (pattern, replacement) table. -/
def MUTATIONS : List (String × String) :=
  [("C", "CC"),
   ("c1ccccc1", "c1cc(C)ccc1"),
   ("C(=O)O", "C(=O)OC"),
   ("N", "NC"),
   ("c1ccccc1", "c1ccc(O)cc1")]

/-- `pat` is a leading segment of `s` (character-level model of Python's
`s.startswith(pat)`). -/
def leadsWith : List Char → List Char → Bool
  | [], _ => true
  | _ :: _, [] => false
  | p :: ps, c :: cs => p == c && leadsWith ps cs

/-- Character-level model of Python's substring test `pat in s`. -/
def occursIn (pat : List Char) : List Char → Bool
  | [] => leadsWith pat []
  | c :: rest => leadsWith pat (c :: rest) || occursIn pat rest

/-- Character-level model of Python's `s.replace(pat, rep, 1)`: replace the
first (leftmost) occurrence of `pat` only, leave `s` unchanged when `pat`
does not occur. -/
def replaceFirstL (pat rep : List Char) : List Char → List Char
  | [] => if leadsWith pat [] then rep ++ List.drop pat.length [] else []
  | c :: rest =>
    if leadsWith pat (c :: rest) then rep ++ List.drop pat.length (c :: rest)
    else c :: replaceFirstL pat rep rest

/-- `GeneratorAgent._apply_random_mutation`: draw one (pattern, replacement)
pair with `random.choice` (one tape position), replace the pattern's first
occurrence if present, otherwise return the input unchanged.  Returns the
new string and the advanced tape counter. -/
def apply_random_mutation (rng : ℕ → ℕ) (t : ℕ) (smiles : String) : String × ℕ :=
  let pr := MUTATIONS.getD (rng t % MUTATIONS.length) ("", "")
  if occursIn pr.1.data smiles.data
  then (String.mk (replaceFirstL pr.1.data pr.2.data smiles.data), t + 1)
  else (smiles, t + 1)

/-- `random.choice(xs)` on a list known to be nonempty at every call site
(`BASE_MOLECULES`, `MUTATIONS`): index `k % len(xs)`. -/
def listChoiceD (k : ℕ) (xs : List String) : String := xs.getD (k % xs.length) ""

/-- The first `while` loop of `_generate_base_candidates`
(`len(candidates) < n and attempts < max_attempts`): draw a base molecule,
append it if new, then append a mutated variant if still short and the
variant is truthy and new.  `fuel` is the remaining attempt budget. -/
def generate_base_loop (rng : ℕ → ℕ) (n : ℕ) :
    ℕ → ℕ → List String → List String × ℕ
  | 0, t, candidates => (candidates, t)
  | fuel + 1, t, candidates =>
    if candidates.length < n then
      let base := listChoiceD (rng t) BASE_MOLECULES
      let cands1 := if base ∈ candidates then candidates else candidates ++ [base]
      if cands1.length < n then
        let vm := apply_random_mutation rng (t + 1) base
        let cands2 :=
          if vm.1 ≠ "" ∧ vm.1 ∉ cands1 then cands1 ++ [vm.1] else cands1
        generate_base_loop rng n fuel vm.2 cands2
      else generate_base_loop rng n fuel (t + 1) cands1
    else (candidates, t)

/-- The trailing `while len(candidates) < n` padding loop of
`_generate_base_candidates`: append random base molecules until the list
reaches `n`.  At most `n` appends are ever needed, so fuel `n` makes the
recursion structural without changing behaviour. -/
def pad_with_random_base (rng : ℕ → ℕ) (n : ℕ) :
    ℕ → ℕ → List String → List String × ℕ
  | 0, t, candidates => (candidates, t)
  | fuel + 1, t, candidates =>
    if candidates.length < n then
      pad_with_random_base rng n fuel (t + 1)
        (candidates ++ [listChoiceD (rng t) BASE_MOLECULES])
    else (candidates, t)

/-- `GeneratorAgent._generate_base_candidates`. -/
def generate_base_candidates (rng : ℕ → ℕ) (t n : ℕ) : List String × ℕ :=
  let r1 := generate_base_loop rng n (n * 5) t []
  let r2 := pad_with_random_base rng n n r1.2 r1.1
  (r2.1.take n, r2.2)

/-- The mutation `while` loop of `_generate_mutated_candidates`: pick a
random seed (`random.choice(seeds)`, which raises — modelled `none` — on an
empty seed list), mutate it, and append the result if truthy and either new
or past the `n*2`-attempt mark; stop at `n` candidates or after `n*3`
attempts. -/
def generate_mut_loop (rng : ℕ → ℕ) (seeds : List String) (n : ℕ) :
    ℕ → ℕ → ℕ → List String → Option (List String × ℕ)
  | 0, _, t, candidates => some (candidates, t)
  | fuel + 1, attempts, t, candidates =>
    if candidates.length < n then
      match seeds.get? (rng t % seeds.length) with
      | none => none
      | some seed =>
        let attempts2 := attempts + 1
        let vm := apply_random_mutation rng (t + 1) seed
        if vm.1 ≠ "" ∧ (vm.1 ∉ candidates ∨ n * 2 < attempts2) then
          generate_mut_loop rng seeds n fuel attempts2 vm.2 (candidates ++ [vm.1])
        else generate_mut_loop rng seeds n fuel attempts2 vm.2 candidates
    else some (candidates, t)

/-- The trailing `while len(candidates) < n` loop of
`_generate_mutated_candidates`: pad with base molecules cycled by index. -/
def pad_with_base_cycle (n : ℕ) : ℕ → ℕ → List String → List String
  | 0, _, candidates => candidates
  | fuel + 1, base_idx, candidates =>
    if candidates.length < n then
      pad_with_base_cycle n fuel (base_idx + 1)
        (candidates ++ [BASE_MOLECULES.getD (base_idx % BASE_MOLECULES.length) ""])
    else candidates

/-- `GeneratorAgent._generate_mutated_candidates`: keep the seeds first
(`seeds[:min(len(seeds), n)]`), then mutate random seeds, then pad from the
base corpus, and return the first `n`. -/
def generate_mutated_candidates (rng : ℕ → ℕ) (t : ℕ) (seeds : List String)
    (n : ℕ) : Option (List String × ℕ) :=
  let start := seeds.take (min seeds.length n)
  match generate_mut_loop rng seeds n (n * 3) 0 t start with
  | none => none
  | some (cands, t2) => some ((pad_with_base_cycle n n 0 cands).take n, t2)

/-- `GeneratorAgent.act`: round 1 or an empty seed list draws from the base
corpus, otherwise mutate the seeds.  `none` models an uncaught exception
(never actually produced — see `generator_returns_exactly_n`). -/
def act (rng : ℕ → ℕ) (t : ℕ) (n_candidates round_num : ℕ)
    (seed_molecules : List String) : Option (List String × ℕ) :=
  if round_num = 1 ∨ seed_molecules = [] then
    some (generate_base_candidates rng t n_candidates)
  else generate_mutated_candidates rng t seed_molecules n_candidates

end GeneratorAgent

namespace GeneratorAgent

theorem leadsWith_iff (p : List Char) :
    ∀ s, leadsWith p s = true ↔ ∃ tl, s = p ++ tl := by
  induction p with
  | nil =>
    intro s
    simp [leadsWith]
  | cons c ps ih =>
    intro s
    cases s with
    | nil => simp [leadsWith]
    | cons d ds =>
      simp only [leadsWith, Bool.and_eq_true, beq_iff_eq, ih, List.cons_append]
      constructor
      · rintro ⟨rfl, tl, rfl⟩
        exact ⟨tl, rfl⟩
      · rintro ⟨tl, heq⟩
        injection heq with h1 h2
        exact ⟨h1.symm, tl, h2⟩

theorem occursIn_iff (p : List Char) :
    ∀ s, occursIn p s = true ↔ ∃ a b, s = a ++ p ++ b := by
  intro s
  induction s with
  | nil =>
    simp only [occursIn, leadsWith_iff]
    constructor
    · rintro ⟨tl, htl⟩
      rcases List.append_eq_nil.mp htl.symm with ⟨hp, ht⟩
      exact ⟨[], [], by simp [hp]⟩
    · rintro ⟨a, b, hab⟩
      rcases List.append_eq_nil.mp hab.symm with ⟨hap, hb⟩
      rcases List.append_eq_nil.mp hap with ⟨ha, hp⟩
      exact ⟨[], by simp [hp]⟩
  | cons c rest ih =>
    simp only [occursIn, Bool.or_eq_true, leadsWith_iff, ih]
    constructor
    · rintro (⟨tl, htl⟩ | ⟨a, b, hab⟩)
      · exact ⟨[], tl, by simpa using htl⟩
      · exact ⟨c :: a, b, by simp [hab]⟩
    · rintro ⟨a, b, hab⟩
      cases a with
      | nil => exact Or.inl ⟨b, by simpa using hab⟩
      | cons a0 as =>
        injection hab with h1 h2
        exact Or.inr ⟨as, b, h2⟩

/-- `replaceFirstL` rewrites exactly one occurrence of the pattern, and the
leftmost one: the returned decomposition has the shortest possible prefix. -/
theorem replaceFirstL_first_occurrence (p r : List Char) :
    ∀ s, occursIn p s = true →
      ∃ a b, s = a ++ p ++ b ∧ replaceFirstL p r s = a ++ r ++ b ∧
        ∀ a2 b2, s = a2 ++ p ++ b2 → a.length ≤ a2.length := by
  intro s
  induction s with
  | nil =>
    intro h
    have hp : ∃ tl, ([] : List Char) = p ++ tl := by
      simpa only [occursIn, leadsWith_iff] using h
    rcases hp with ⟨tl, htl⟩
    rcases List.append_eq_nil.mp htl.symm with ⟨hpnil, htlnil⟩
    refine ⟨[], [], by simp [hpnil], ?_, fun a2 b2 _ => Nat.zero_le _⟩
    simp [replaceFirstL, hpnil, leadsWith]
  | cons c rest ih =>
    intro h
    by_cases hl : leadsWith p (c :: rest) = true
    · rcases (leadsWith_iff p (c :: rest)).mp hl with ⟨tl, htl⟩
      refine ⟨[], tl, by simpa using htl, ?_, fun a2 b2 _ => Nat.zero_le _⟩
      simp only [replaceFirstL, if_pos hl]
      rw [htl, List.drop_left]
      simp
    · have hocc : occursIn p rest = true := by
        have h2 := h
        simp only [occursIn, Bool.or_eq_true] at h2
        rcases h2 with h1 | h1
        · exact absurd h1 hl
        · exact h1
      rcases ih hocc with ⟨a, b, h1, h2, h3⟩
      refine ⟨c :: a, b, by simp [h1], ?_, ?_⟩
      · simp only [replaceFirstL, if_neg hl, h2]
        simp
      · intro a2 b2 heq
        cases a2 with
        | nil =>
          exact absurd ((leadsWith_iff p (c :: rest)).mpr ⟨b2, by simpa using heq⟩) hl
        | cons c2 as =>
          injection heq with hc hrest
          simpa using Nat.succ_le_succ (h3 as b2 hrest)

end GeneratorAgent

/-- C9: one mutation step draws one (pattern, replacement) pair from the
fixed five-entry table — index `rng t % 5`, so every entry is selectable and
the draw matches `random.choice` over the table; when the pattern does not
occur in the source the source is returned unchanged (no-op mutation), and
when it does occur the replacement is applied exactly once, at the first
(leftmost) occurrence only. -/
theorem mutation_noop_or_first_occurrence (rng : ℕ → ℕ) (t : ℕ) (s : String) :
    GeneratorAgent.MUTATIONS.length = 5 ∧
    (∀ pat rep,
      GeneratorAgent.MUTATIONS.getD (rng t % GeneratorAgent.MUTATIONS.length)
          ("", "") = (pat, rep) →
      (GeneratorAgent.occursIn pat.data s.data = false →
        (GeneratorAgent.apply_random_mutation rng t s).1 = s) ∧
      (GeneratorAgent.occursIn pat.data s.data = true →
        ∃ a b, s.data = a ++ pat.data ++ b ∧
          ((GeneratorAgent.apply_random_mutation rng t s).1).data
            = a ++ rep.data ++ b ∧
          ∀ a2 b2, s.data = a2 ++ pat.data ++ b2 → a.length ≤ a2.length)) := by
  refine ⟨rfl, ?_⟩
  intro pat rep hpr
  constructor
  · intro hno
    simp only [GeneratorAgent.apply_random_mutation]
    rw [hpr]
    simp [hno]
  · intro hyes
    rcases GeneratorAgent.replaceFirstL_first_occurrence pat.data rep.data s.data hyes
      with ⟨a, b, h1, h2, h3⟩
    refine ⟨a, b, h1, ?_, h3⟩
    simp only [GeneratorAgent.apply_random_mutation]
    rw [hpr]
    simp [hyes, h2]

namespace GeneratorAgent

theorem pad_with_random_base_length (rng : ℕ → ℕ) (n : ℕ) :
    ∀ (fuel t : ℕ) (cands : List String), n ≤ cands.length + fuel →
      n ≤ ((pad_with_random_base rng n fuel t cands).1).length := by
  intro fuel
  induction fuel with
  | zero =>
    intro t cands h
    simpa [pad_with_random_base] using h
  | succ fuel ih =>
    intro t cands h
    by_cases hlt : cands.length < n
    · simp only [pad_with_random_base, if_pos hlt]
      apply ih
      simp only [List.length_append, List.length_cons, List.length_nil]
      omega
    · simp only [pad_with_random_base, if_neg hlt]
      omega

theorem pad_with_base_cycle_length (n : ℕ) :
    ∀ (fuel idx : ℕ) (cands : List String), n ≤ cands.length + fuel →
      n ≤ (pad_with_base_cycle n fuel idx cands).length := by
  intro fuel
  induction fuel with
  | zero =>
    intro idx cands h
    simpa [pad_with_base_cycle] using h
  | succ fuel ih =>
    intro idx cands h
    by_cases hlt : cands.length < n
    · simp only [pad_with_base_cycle, if_pos hlt]
      apply ih
      simp only [List.length_append, List.length_cons, List.length_nil]
      omega
    · simp only [pad_with_base_cycle, if_neg hlt]
      omega

theorem pad_with_base_cycle_extends (n : ℕ) :
    ∀ (fuel idx : ℕ) (cands : List String),
      ∃ ext, pad_with_base_cycle n fuel idx cands = cands ++ ext := by
  intro fuel
  induction fuel with
  | zero =>
    intro idx cands
    exact ⟨[], by simp [pad_with_base_cycle]⟩
  | succ fuel ih =>
    intro idx cands
    by_cases hlt : cands.length < n
    · simp only [pad_with_base_cycle, if_pos hlt]
      rcases ih (idx + 1) (cands ++ [BASE_MOLECULES.getD (idx % BASE_MOLECULES.length) ""])
        with ⟨ext, hext⟩
      exact ⟨[BASE_MOLECULES.getD (idx % BASE_MOLECULES.length) ""] ++ ext,
        by rw [hext, List.append_assoc]⟩
    · simp only [pad_with_base_cycle, if_neg hlt]
      exact ⟨[], by simp⟩

theorem generate_mut_loop_extends (rng : ℕ → ℕ) (seeds : List String) (n : ℕ) :
    ∀ (fuel attempts t : ℕ) (cands : List String) (res : List String × ℕ),
      generate_mut_loop rng seeds n fuel attempts t cands = some res →
      ∃ ext, res.1 = cands ++ ext := by
  intro fuel
  induction fuel with
  | zero =>
    intro attempts t cands res h
    simp only [generate_mut_loop] at h
    injection h with h1
    exact ⟨[], by simp [← h1]⟩
  | succ fuel ih =>
    intro attempts t cands res h
    simp only [generate_mut_loop] at h
    by_cases hlt : cands.length < n
    · rw [if_pos hlt] at h
      cases hget : seeds.get? (rng t % seeds.length) with
      | none => rw [hget] at h; exact absurd h (by simp)
      | some seed =>
        rw [hget] at h
        simp only at h
        by_cases hcond : (apply_random_mutation rng (t + 1) seed).1 ≠ "" ∧
            ((apply_random_mutation rng (t + 1) seed).1 ∉ cands ∨ n * 2 < attempts + 1)
        · rw [if_pos hcond] at h
          rcases ih _ _ _ _ h with ⟨ext, hext⟩
          exact ⟨[(apply_random_mutation rng (t + 1) seed).1] ++ ext,
            by rw [hext, List.append_assoc]⟩
        · rw [if_neg hcond] at h
          exact ih _ _ _ _ h
    · rw [if_neg hlt] at h
      injection h with h1
      exact ⟨[], by simp [← h1]⟩

theorem generate_mut_loop_isSome (rng : ℕ → ℕ) (seeds : List String) (n : ℕ)
    (hseeds : seeds ≠ []) :
    ∀ (fuel attempts t : ℕ) (cands : List String),
      ∃ res, generate_mut_loop rng seeds n fuel attempts t cands = some res := by
  intro fuel
  induction fuel with
  | zero =>
    intro attempts t cands
    exact ⟨(cands, t), rfl⟩
  | succ fuel ih =>
    intro attempts t cands
    by_cases hlt : cands.length < n
    · cases hget : seeds.get? (rng t % seeds.length) with
      | none =>
        exfalso
        have hlen : seeds.length ≤ rng t % seeds.length := List.get?_eq_none.mp hget
        have hpos : 0 < seeds.length := List.length_pos.mpr hseeds
        have := Nat.mod_lt (rng t) hpos
        omega
      | some seed =>
        simp only [generate_mut_loop, if_pos hlt, hget]
        by_cases hcond : (apply_random_mutation rng (t + 1) seed).1 ≠ "" ∧
            ((apply_random_mutation rng (t + 1) seed).1 ∉ cands ∨ n * 2 < attempts + 1)
        · rw [if_pos hcond]
          exact ih _ _ _
        · rw [if_neg hcond]
          exact ih _ _ _
    · exact ⟨(cands, t), by simp [generate_mut_loop, if_neg hlt]⟩

theorem generate_base_candidates_length (rng : ℕ → ℕ) (t n : ℕ) :
    ((generate_base_candidates rng t n).1).length = n := by
  have h : n ≤ (((pad_with_random_base rng n n
      (generate_base_loop rng n (n * 5) t []).2
      (generate_base_loop rng n (n * 5) t []).1)).1).length :=
    pad_with_random_base_length rng n n _ _ (by omega)
  simp only [generate_base_candidates, List.length_take]
  omega

theorem generate_mutated_candidates_some (rng : ℕ → ℕ) (t : ℕ)
    (seeds : List String) (n : ℕ) (hseeds : seeds ≠ []) :
    ∃ cands t2, generate_mutated_candidates rng t seeds n = some (cands, t2) ∧
      cands.length = n := by
  rcases generate_mut_loop_isSome rng seeds n hseeds (n * 3) 0 t
      (seeds.take (min seeds.length n)) with ⟨res, hres⟩
  have hlen : n ≤ (pad_with_base_cycle n n 0 res.1).length :=
    pad_with_base_cycle_length n n 0 res.1 (by omega)
  refine ⟨(pad_with_base_cycle n n 0 res.1).take n, res.2, ?_, ?_⟩
  · simp only [generate_mutated_candidates, hres]
  · simp only [List.length_take]
    omega

/-- `act` always returns (`some`) and always returns exactly `n`
candidates, for every tape, counter, round number and seed list. -/
theorem act_some_length (rng : ℕ → ℕ) (t : ℕ) (n round_num : ℕ)
    (seed_molecules : List String) :
    ∃ cands t2, act rng t n round_num seed_molecules = some (cands, t2) ∧
      cands.length = n := by
  by_cases hcond : round_num = 1 ∨ seed_molecules = []
  · refine ⟨(generate_base_candidates rng t n).1,
      (generate_base_candidates rng t n).2, ?_,
      generate_base_candidates_length rng t n⟩
    simp [act, hcond]
  · have hseeds : seed_molecules ≠ [] := fun hnil => hcond (Or.inr hnil)
    rcases generate_mutated_candidates_some rng t seed_molecules n hseeds
      with ⟨cands, t2, heq, hlen⟩
    exact ⟨cands, t2, by simp [act, hcond, heq], hlen⟩

end GeneratorAgent

/-- C4: for every `n ≥ 1`, every round number and every seed list (including
the empty one), the generator's `act` returns normally (`some`, i.e. no
exception) with a candidate list of exactly `n` entries, even when `n`
exceeds the base corpus size or no seed mutation produces a novel result
(the attempt-bounded loops fall back to padding). -/
theorem generator_returns_exactly_n (rng : ℕ → ℕ) (t : ℕ) (n round_num : ℕ)
    (seed_molecules : List String) (_h : 1 ≤ n) :
    ∃ cands t2,
      GeneratorAgent.act rng t n round_num seed_molecules = some (cands, t2) ∧
      cands.length = n :=
  GeneratorAgent.act_some_length rng t n round_num seed_molecules

/-- Return value of the chemistry tool's `process_molecule` as the pipeline
reads it: a validity flag and, when valid, the computed descriptors
(`properties`). -/
structure OracleOut where
  valid : Bool
  properties : List (String × ℚ)
deriving DecidableEq, Repr

/-- The property oracle as the orchestrator consumes it:
`Except.error msg` models the call itself raising (an exception escaping
`process_molecule`), `Except.ok` a normal return. -/
def Oracle : Type := String → Except String OracleOut

/-- The resolved run plan (the planner's output, `plan` in
`AgenticPipeline.run`). -/
structure Plan where
  rounds : ℕ
  candidates_per_round : ℕ
  top_k : ℕ
  max_violations : ℕ
  scoring_penalty : ℚ
deriving DecidableEq, Repr

/-- Ghost record of one executed round: the seed molecules the round started
from, the generated candidate structures, the admitted (`processed`)
molecules in encounter order, the round's full ranking and its elite
(`top`) subset.  The pipeline's observable behaviour is a function of this
trace. -/
structure RoundRec where
  roundNum : ℕ
  seedsUsed : List Mol
  candidates : List String
  processed : List Mol
  ranked : List Mol
  top : List Mol
deriving DecidableEq, Repr

/-- Outcome of `AgenticPipeline.run`: the run's final status, the returned
molecule list, the `Molecule` rows written to the database (written only in
the success path, after all rounds), and `run.error_message`. -/
structure RunOutcome where
  status : String
  molecules : List Mol
  persisted : List Mol
  errorMessage : Option String
deriving DecidableEq, Repr

/-- The per-candidate loop of a round (`for idx, smiles in enumerate`):
call the oracle; a raised exception propagates out of the loop; a valid
result is screened and scored, and the molecule is kept only when it passed
screening.  Returns the admitted molecules in encounter order. -/
def processCandidates (oracle : Oracle) (max_violations : ℕ) (penalty : ℚ)
    (round_num : ℕ) : List String → Except String (List Mol)
  | [] => Except.ok []
  | smiles :: rest =>
    match oracle smiles with
    | Except.error e => Except.error e
    | Except.ok result =>
      let here : List Mol :=
        if result.valid then
          let ev := MoleculeScreening.evaluate_molecule max_violations
            result.properties penalty
          if ev.screening_result.passed then
            [{ smiles := smiles, valid := true, round := round_num,
               properties := result.properties,
               screening_result := ev.screening_result,
               score := ev.score, rank := none }]
          else []
        else []
      match processCandidates oracle max_violations penalty round_num rest with
      | Except.error e => Except.error e
      | Except.ok tail => Except.ok (here ++ tail)

/-- The multi-round loop of `AgenticPipeline.run`, returning the trace of
executed rounds (newest rounds at the tail).  Any exception aborts the
whole loop. -/
def roundsLoop (oracle : Oracle) (rng : ℕ → ℕ) (plan : Plan) :
    ℕ → ℕ → List Mol → ℕ → Except String (List RoundRec)
  | 0, _, _, _ => Except.ok []
  | rem + 1, round_num, seed_molecules, t =>
    match GeneratorAgent.act rng t plan.candidates_per_round round_num
        (seed_molecules.map Mol.smiles) with
    | none => Except.error "Cannot choose from an empty sequence"
    | some (candidates, t2) =>
      match processCandidates oracle plan.max_violations plan.scoring_penalty
          round_num candidates with
      | Except.error e => Except.error e
      | Except.ok processed =>
        let rr := RankerAgent.act processed plan.scoring_penalty plan.top_k
        match roundsLoop oracle rng plan rem (round_num + 1) rr.2 t2 with
        | Except.error e => Except.error e
        | Except.ok rest =>
          Except.ok ({ roundNum := round_num, seedsUsed := seed_molecules,
                       candidates := candidates, processed := processed,
                       ranked := rr.1, top := rr.2 } :: rest)

/-- The trace of a run: the executed rounds (empty when the run failed
before completing a single round's bookkeeping). -/
def runTrace (oracle : Oracle) (rng : ℕ → ℕ) (plan : Plan) : List RoundRec :=
  (roundsLoop oracle rng plan plan.rounds 1 [] 0).toOption.getD []

/-- `for idx, mol in enumerate(all_molecules_sorted): mol["rank"] = idx + 1`:
assign 1-based global ranks down the sorted list. -/
def assignRanks : ℕ → List Mol → List Mol
  | _, [] => []
  | i, m :: rest => { m with rank := some (i + 1) } :: assignRanks (i + 1) rest

namespace AgenticPipeline

/-- `AgenticPipeline.run`: execute all rounds; on success, merge every
round's ranked list (in accumulation order), stable-sort descending by
score, assign 1-based global ranks, persist exactly that list, and return
status `completed`.  Any exception escaping the round loop yields status
`failed` with the exception's message and nothing persisted. -/
def run (oracle : Oracle) (rng : ℕ → ℕ) (plan : Plan) : RunOutcome :=
  match roundsLoop oracle rng plan plan.rounds 1 [] 0 with
  | Except.error e =>
    { status := "failed", molecules := [], persisted := [],
      errorMessage := some e }
  | Except.ok trace =>
    let all_molecules := (trace.map RoundRec.ranked).flatten
    let all_molecules_sorted := assignRanks 0 (pySortDesc all_molecules)
    { status := "completed", molecules := all_molecules_sorted,
      persisted := all_molecules_sorted, errorMessage := none }

end AgenticPipeline

/-- Forget the (finalization-only) rank field of a molecule record. -/
def clearRank (m : Mol) : Mol := { m with rank := none }

/-- The invariant of every molecule record the pipeline retains after
screening: it was valid, it passed admission, its rank is not yet assigned,
and its stored score already equals the ranker's recomputation (so the
ranker's re-scoring is the identity on it). -/
def GoodMol (penalty : ℚ) (m : Mol) : Prop :=
  m.valid = true ∧ m.screening_result.passed = true ∧ m.rank = none ∧
    RankerAgent.copyWithScore penalty m = m

theorem processCandidates_good (oracle : Oracle) (mv : ℕ) (penalty : ℚ)
    (rn : ℕ) :
    ∀ (cs : List String) (l : List Mol),
      processCandidates oracle mv penalty rn cs = Except.ok l →
      ∀ m ∈ l, GoodMol penalty m := by
  intro cs
  induction cs with
  | nil =>
    intro l h m hm
    simp only [processCandidates] at h
    injection h with h1
    rw [← h1] at hm
    simp at hm
  | cons smiles rest ih =>
    intro l h m hm
    simp only [processCandidates] at h
    cases horacle : oracle smiles with
    | error e => rw [horacle] at h; exact absurd h (by simp)
    | ok result =>
      rw [horacle] at h
      simp only at h
      cases hrec : processCandidates oracle mv penalty rn rest with
      | error e => rw [hrec] at h; exact absurd h (by simp)
      | ok tail =>
        rw [hrec] at h
        simp only at h
        injection h with h1
        rw [← h1] at hm
        rcases List.mem_append.mp hm with hm | hm
        · by_cases hvalid : result.valid = true
          · rw [if_pos hvalid] at hm
            by_cases hp : (MoleculeScreening.evaluate_molecule mv result.properties
                penalty).screening_result.passed = true
            · rw [if_pos hp] at hm
              rcases List.mem_singleton.mp hm with rfl
              exact ⟨rfl, hp, rfl, rfl⟩
            · rw [if_neg hp] at hm
              simp at hm
          · rw [if_neg hvalid] at hm
            simp at hm
        · exact ih tail hrec m hm

theorem map_copyWithScore_eq_self (penalty : ℚ) :
    ∀ (mols : List Mol), (∀ m ∈ mols, GoodMol penalty m) →
      mols.map (RankerAgent.copyWithScore penalty) = mols := by
  intro mols
  induction mols with
  | nil => intro _; rfl
  | cons m rest ih =>
    intro h
    have hm := (h m (by simp)).2.2.2
    have hrest := ih fun x hx => h x (by simp [hx])
    simp [hm, hrest]

theorem rankerAct_eq_sortDesc (penalty : ℚ) (topk : ℕ) (mols : List Mol)
    (h : ∀ m ∈ mols, GoodMol penalty m) :
    RankerAgent.act mols penalty topk
      = (pySortDesc mols, (pySortDesc mols).take topk) := by
  simp [RankerAgent.act, map_copyWithScore_eq_self penalty mols h]

theorem goodMol_of_mem_sortDesc (penalty : ℚ) (mols : List Mol)
    (h : ∀ m ∈ mols, GoodMol penalty m) :
    ∀ m ∈ pySortDesc mols, GoodMol penalty m := by
  intro m hm
  exact h m ((pySortDesc_perm mols).mem_iff.mp hm)

theorem roundsLoop_good (oracle : Oracle) (rng : ℕ → ℕ) (plan : Plan) :
    ∀ (rem rn : ℕ) (seeds : List Mol) (t : ℕ) (trace : List RoundRec),
      (∀ m ∈ seeds, GoodMol plan.scoring_penalty m) →
      roundsLoop oracle rng plan rem rn seeds t = Except.ok trace →
      ∀ rec ∈ trace,
        (∀ m ∈ rec.seedsUsed, GoodMol plan.scoring_penalty m) ∧
        (∀ m ∈ rec.processed, GoodMol plan.scoring_penalty m) ∧
        rec.ranked = pySortDesc rec.processed ∧
        rec.top = rec.ranked.take plan.top_k ∧
        (∀ m ∈ rec.ranked, GoodMol plan.scoring_penalty m) ∧
        (∀ m ∈ rec.top, GoodMol plan.scoring_penalty m) := by
  intro rem
  induction rem with
  | zero =>
    intro rn seeds t trace _ h rec hrec
    simp only [roundsLoop] at h
    injection h with h1
    rw [← h1] at hrec
    simp at hrec
  | succ rem ih =>
    intro rn seeds t trace hseeds h rec hrec
    simp only [roundsLoop] at h
    cases hact : GeneratorAgent.act rng t plan.candidates_per_round rn
        (seeds.map Mol.smiles) with
    | none => rw [hact] at h; exact absurd h (by simp)
    | some ct =>
      obtain ⟨candidates, t2⟩ := ct
      rw [hact] at h
      simp only at h
      cases hproc : processCandidates oracle plan.max_violations
          plan.scoring_penalty rn candidates with
      | error e => rw [hproc] at h; exact absurd h (by simp)
      | ok processed =>
        rw [hproc] at h
        simp only at h
        have hgoodp : ∀ m ∈ processed, GoodMol plan.scoring_penalty m :=
          processCandidates_good oracle plan.max_violations plan.scoring_penalty
            rn candidates processed hproc
        have hranker := rankerAct_eq_sortDesc plan.scoring_penalty plan.top_k
          processed hgoodp
        rw [hranker] at h
        simp only at h
        have hgoods : ∀ m ∈ pySortDesc processed, GoodMol plan.scoring_penalty m :=
          goodMol_of_mem_sortDesc plan.scoring_penalty processed hgoodp
        have hgoodt : ∀ m ∈ (pySortDesc processed).take plan.top_k,
            GoodMol plan.scoring_penalty m :=
          fun m hm => hgoods m (List.take_subset _ _ hm)
        cases hrest : roundsLoop oracle rng plan rem (rn + 1)
            ((pySortDesc processed).take plan.top_k) t2 with
        | error e => rw [hrest] at h; exact absurd h (by simp)
        | ok rest =>
          rw [hrest] at h
          injection h with h1
          rw [← h1] at hrec
          rcases List.mem_cons.mp hrec with rfl | hmem
          · exact ⟨hseeds, hgoodp, rfl, rfl, hgoods, hgoodt⟩
          · exact ih (rn + 1) ((pySortDesc processed).take plan.top_k) t2 rest
              hgoodt hrest rec hmem

theorem assignRanks_length : ∀ (i : ℕ) (l : List Mol),
    (assignRanks i l).length = l.length := by
  intro i l
  induction l generalizing i with
  | nil => rfl
  | cons m rest ih => simp [assignRanks, ih]

theorem assignRanks_get_rank : ∀ (l : List Mol) (i j : ℕ)
    (h : j < (assignRanks i l).length),
    ((assignRanks i l).get ⟨j, h⟩).rank = some (i + j + 1) := by
  intro l
  induction l with
  | nil =>
    intro i j h
    simp [assignRanks] at h
  | cons m rest ih =>
    intro i j h
    cases j with
    | zero => simp [assignRanks]
    | succ j =>
      have := ih (i + 1) j (by simpa [assignRanks] using h)
      simpa [assignRanks, Nat.add_assoc, Nat.add_comm, Nat.add_left_comm] using this

theorem mem_assignRanks : ∀ (i : ℕ) (l : List Mol) (m : Mol),
    m ∈ assignRanks i l → ∃ m0 ∈ l, ∃ k, m = { m0 with rank := some k } := by
  intro i l
  induction l generalizing i with
  | nil =>
    intro m hm
    simp [assignRanks] at hm
  | cons m0 rest ih =>
    intro m hm
    rcases List.mem_cons.mp hm with rfl | hm
    · exact ⟨m0, by simp, i + 1, rfl⟩
    · rcases ih (i + 1) m hm with ⟨m1, hm1, k, hk⟩
      exact ⟨m1, by simp [hm1], k, hk⟩

theorem assignRanks_pairwise_score : ∀ (i : ℕ) (l : List Mol),
    List.Pairwise (fun a b => b.score ≤ a.score) l →
    List.Pairwise (fun a b => b.score ≤ a.score) (assignRanks i l) := by
  intro i l
  induction l generalizing i with
  | nil => intro _; simp [assignRanks]
  | cons m rest ih =>
    intro h
    rcases List.pairwise_cons.mp h with ⟨hm, hrest⟩
    refine List.pairwise_cons.mpr ⟨?_, ih (i + 1) hrest⟩
    intro b hb
    rcases mem_assignRanks (i + 1) rest b hb with ⟨b0, hb0, k, rfl⟩
    exact hm b0 hb0

theorem map_clearRank_assignRanks : ∀ (i : ℕ) (l : List Mol),
    (assignRanks i l).map clearRank = l.map clearRank := by
  intro i l
  induction l generalizing i with
  | nil => rfl
  | cons m rest ih => simp [assignRanks, clearRank, ih]

theorem map_clearRank_eq_self : ∀ (l : List Mol), (∀ m ∈ l, m.rank = none) →
    l.map clearRank = l := by
  intro l
  induction l with
  | nil => intro _; rfl
  | cons m rest ih =>
    intro h
    have hm : m.rank = none := h m (by simp)
    have hrest := ih fun x hx => h x (by simp [hx])
    have hcm : clearRank m = m := by
      cases m
      simp only [clearRank] at hm ⊢
      simp_all
    simp [hcm, hrest]

theorem flatten_ranked_perm_processed : ∀ (trace : List RoundRec),
    (∀ rec ∈ trace, rec.ranked = pySortDesc rec.processed) →
    List.Perm ((trace.map RoundRec.ranked).flatten)
      ((trace.map RoundRec.processed).flatten) := by
  intro trace
  induction trace with
  | nil => intro _; exact List.Perm.refl _
  | cons rec rest ih =>
    intro h
    have hrec : rec.ranked = pySortDesc rec.processed := h rec (by simp)
    have hrest := ih fun r hr => h r (by simp [hr])
    simp only [List.map_cons, List.flatten_cons]
    exact List.Perm.append (hrec ▸ pySortDesc_perm rec.processed) hrest

theorem run_completed_roundsLoop (oracle : Oracle) (rng : ℕ → ℕ) (plan : Plan)
    (h : (AgenticPipeline.run oracle rng plan).status = "completed") :
    roundsLoop oracle rng plan plan.rounds 1 [] 0
      = Except.ok (runTrace oracle rng plan) := by
  cases hl : roundsLoop oracle rng plan plan.rounds 1 [] 0 with
  | error e =>
    have hst : (AgenticPipeline.run oracle rng plan).status = "failed" := by
      simp [AgenticPipeline.run, hl]
    rw [hst] at h
    exact absurd h (by decide)
  | ok trace =>
    simp only [runTrace, hl]
    rfl

theorem run_molecules_of_ok (oracle : Oracle) (rng : ℕ → ℕ) (plan : Plan)
    (trace : List RoundRec)
    (h : roundsLoop oracle rng plan plan.rounds 1 [] 0 = Except.ok trace) :
    (AgenticPipeline.run oracle rng plan).molecules
      = assignRanks 0 (pySortDesc ((trace.map RoundRec.ranked).flatten)) := by
  simp [AgenticPipeline.run, h]

/-- C1: for every completed run, the final output list is (up to the global
ranks it carries) a permutation of the union over all rounds of the admitted
molecules (`processed`: valid and passed admission), sorted descending by
score, with ties kept in accumulation order (stability, stated per score
class against the accumulated per-round rankings), and the molecule at
0-based position `j` carries global rank `j + 1`; molecules that were
invalid or failed admission never appear in the final ranking nor in any
round's seeding. -/
theorem final_global_ranking (oracle : Oracle) (rng : ℕ → ℕ) (plan : Plan)
    (h : (AgenticPipeline.run oracle rng plan).status = "completed") :
    List.Perm ((AgenticPipeline.run oracle rng plan).molecules.map clearRank)
      (((runTrace oracle rng plan).map RoundRec.processed).flatten) ∧
    List.Pairwise (fun a b => b.score ≤ a.score)
      (AgenticPipeline.run oracle rng plan).molecules ∧
    (∀ c : ℚ,
      (((AgenticPipeline.run oracle rng plan).molecules.map clearRank).filter
          fun m => decide (m.score = c))
        = ((((runTrace oracle rng plan).map RoundRec.ranked).flatten).filter
            fun m => decide (m.score = c))) ∧
    (∀ (j : ℕ) (hj : j < (AgenticPipeline.run oracle rng plan).molecules.length),
      (((AgenticPipeline.run oracle rng plan).molecules).get ⟨j, hj⟩).rank
        = some (j + 1)) ∧
    (∀ m ∈ (AgenticPipeline.run oracle rng plan).molecules,
      m.valid = true ∧ m.screening_result.passed = true) ∧
    (∀ rec ∈ runTrace oracle rng plan, ∀ m ∈ rec.seedsUsed,
      m.valid = true ∧ m.screening_result.passed = true) := by
  have hloop := run_completed_roundsLoop oracle rng plan h
  have hgood := roundsLoop_good oracle rng plan plan.rounds 1 [] 0
    (runTrace oracle rng plan) (by simp) hloop
  have hmol := run_molecules_of_ok oracle rng plan (runTrace oracle rng plan) hloop
  have hallgood : ∀ m ∈ ((runTrace oracle rng plan).map RoundRec.ranked).flatten,
      GoodMol plan.scoring_penalty m := by
    intro m hm
    rcases List.mem_flatten.mp hm with ⟨l, hl, hml⟩
    rcases List.mem_map.mp hl with ⟨rec, hrec, rfl⟩
    exact (hgood rec hrec).2.2.2.2.1 m hml
  have hsortgood : ∀ m ∈ pySortDesc (((runTrace oracle rng plan).map
      RoundRec.ranked).flatten), GoodMol plan.scoring_penalty m :=
    goodMol_of_mem_sortDesc plan.scoring_penalty _ hallgood
  have hranknone : ∀ m ∈ pySortDesc (((runTrace oracle rng plan).map
      RoundRec.ranked).flatten), m.rank = none :=
    fun m hm => (hsortgood m hm).2.2.1
  have hclear : (AgenticPipeline.run oracle rng plan).molecules.map clearRank
      = pySortDesc (((runTrace oracle rng plan).map RoundRec.ranked).flatten) := by
    rw [hmol, map_clearRank_assignRanks, map_clearRank_eq_self _ hranknone]
  refine ⟨?_, ?_, ?_, ?_, ?_, ?_⟩
  · rw [hclear]
    exact (pySortDesc_perm _).trans (flatten_ranked_perm_processed
      (runTrace oracle rng plan) fun rec hrec => (hgood rec hrec).2.2.1)
  · rw [hmol]
    exact assignRanks_pairwise_score 0 _ (pySortDesc_pairwise _)
  · intro c
    rw [hclear]
    exact pySortDesc_filter_score _ c
  · intro j
    rw [hmol]
    intro hj
    simpa using assignRanks_get_rank _ 0 j hj
  · intro m hm
    rw [hmol] at hm
    rcases mem_assignRanks 0 _ m hm with ⟨m0, hm0, k, rfl⟩
    have hg := hsortgood m0 hm0
    exact ⟨hg.1, hg.2.1⟩
  · intro rec hrec m hm
    have hg := (hgood rec hrec).1 m hm
    exact ⟨hg.1, hg.2.1⟩

theorem take_append_length {α : Type} : ∀ (a b : List α),
    (a ++ b).take a.length = a := by
  intro a b
  induction a with
  | nil => rfl
  | cons x xs ih => simp [ih]

/-- In a round beyond the first with a nonempty seed list, the generated
candidate list starts with the seeds verbatim: its first
`min(len(seeds), n)` entries are exactly `seeds[:min(len(seeds), n)]`
(with an empty seed list this is vacuous). -/
theorem act_seed_verbatim (rng : ℕ → ℕ) (t n rn : ℕ) (seeds : List String)
    (cands : List String) (t2 : ℕ)
    (h : GeneratorAgent.act rng t n rn seeds = some (cands, t2)) (hrn : rn ≠ 1) :
    cands.take (min seeds.length n) = seeds.take (min seeds.length n) := by
  by_cases hseeds : seeds = []
  · subst hseeds
    simp
  · have hcond : ¬(rn = 1 ∨ seeds = []) := by
      rintro (h1 | h1)
      · exact hrn h1
      · exact hseeds h1
    simp only [GeneratorAgent.act, if_neg hcond] at h
    simp only [GeneratorAgent.generate_mutated_candidates] at h
    cases hmut : GeneratorAgent.generate_mut_loop rng seeds n (n * 3) 0 t
        (seeds.take (min seeds.length n)) with
    | none => rw [hmut] at h; exact absurd h (by simp)
    | some res =>
      obtain ⟨resl, rest2⟩ := res
      rw [hmut] at h
      simp only at h
      injection h with h1
      injection h1 with hc ht
      rcases GeneratorAgent.generate_mut_loop_extends rng seeds n _ _ _ _ _ hmut
        with ⟨ext1, hext1⟩
      rcases GeneratorAgent.pad_with_base_cycle_extends n n 0 resl with ⟨ext2, hext2⟩
      simp only at hext1
      rw [← hc, hext2, hext1, List.append_assoc, List.take_take]
      have hmin : min (min seeds.length n) n = min seeds.length n := by omega
      rw [hmin]
      have hlen : (seeds.take (min seeds.length n)).length = min seeds.length n := by
        rw [List.length_take]
        omega
      generalize hS : List.take (min seeds.length n) seeds = S at hlen ⊢
      rw [← hlen]
      exact take_append_length S (ext1 ++ ext2)

theorem roundsLoop_head_facts (oracle : Oracle) (rng : ℕ → ℕ) (plan : Plan) :
    ∀ (rem rn : ℕ) (seeds : List Mol) (t : ℕ) (trace : List RoundRec),
      roundsLoop oracle rng plan rem rn seeds t = Except.ok trace →
      ∀ (h0 : 0 < trace.length),
        (trace.get ⟨0, h0⟩).seedsUsed = seeds ∧
        (trace.get ⟨0, h0⟩).roundNum = rn ∧
        ∃ ta tb, GeneratorAgent.act rng ta plan.candidates_per_round rn
            (seeds.map Mol.smiles) = some ((trace.get ⟨0, h0⟩).candidates, tb) := by
  intro rem
  cases rem with
  | zero =>
    intro rn seeds t trace h h0
    simp only [roundsLoop] at h
    injection h with h1
    subst h1
    simp at h0
  | succ rem =>
    intro rn seeds t trace h h0
    simp only [roundsLoop] at h
    cases hact : GeneratorAgent.act rng t plan.candidates_per_round rn
        (seeds.map Mol.smiles) with
    | none => rw [hact] at h; exact absurd h (by simp)
    | some ct =>
      obtain ⟨candidates, t2⟩ := ct
      rw [hact] at h
      simp only at h
      cases hproc : processCandidates oracle plan.max_violations
          plan.scoring_penalty rn candidates with
      | error e => rw [hproc] at h; exact absurd h (by simp)
      | ok processed =>
        rw [hproc] at h
        simp only at h
        cases hrest : roundsLoop oracle rng plan rem (rn + 1)
            ((RankerAgent.act processed plan.scoring_penalty plan.top_k).2) t2 with
        | error e => rw [hrest] at h; exact absurd h (by simp)
        | ok rest =>
          rw [hrest] at h
          injection h with h1
          subst h1
          exact ⟨rfl, rfl, t, t2, hact⟩

theorem roundsLoop_chain (oracle : Oracle) (rng : ℕ → ℕ) (plan : Plan) :
    ∀ (rem rn : ℕ) (seeds : List Mol) (t : ℕ) (trace : List RoundRec),
      roundsLoop oracle rng plan rem rn seeds t = Except.ok trace →
      ∀ (i : ℕ) (hi1 : i < trace.length) (hi2 : i + 1 < trace.length),
        (trace.get ⟨i + 1, hi2⟩).seedsUsed = (trace.get ⟨i, hi1⟩).top ∧
        (trace.get ⟨i + 1, hi2⟩).roundNum = rn + i + 1 ∧
        ∃ ta tb, GeneratorAgent.act rng ta plan.candidates_per_round
            (rn + i + 1) (((trace.get ⟨i, hi1⟩).top).map Mol.smiles)
          = some ((trace.get ⟨i + 1, hi2⟩).candidates, tb) := by
  intro rem
  induction rem with
  | zero =>
    intro rn seeds t trace h i hi1 hi2
    simp only [roundsLoop] at h
    injection h with h1
    subst h1
    simp at hi1
  | succ rem ih =>
    intro rn seeds t trace h i hi1 hi2
    simp only [roundsLoop] at h
    cases hact : GeneratorAgent.act rng t plan.candidates_per_round rn
        (seeds.map Mol.smiles) with
    | none => rw [hact] at h; exact absurd h (by simp)
    | some ct =>
      obtain ⟨candidates, t2⟩ := ct
      rw [hact] at h
      simp only at h
      cases hproc : processCandidates oracle plan.max_violations
          plan.scoring_penalty rn candidates with
      | error e => rw [hproc] at h; exact absurd h (by simp)
      | ok processed =>
        rw [hproc] at h
        simp only at h
        cases hrest : roundsLoop oracle rng plan rem (rn + 1)
            ((RankerAgent.act processed plan.scoring_penalty plan.top_k).2) t2 with
        | error e => rw [hrest] at h; exact absurd h (by simp)
        | ok rest =>
          rw [hrest] at h
          injection h with h1
          subst h1
          cases i with
          | zero =>
            have h0 : 0 < rest.length := by simpa using hi2
            have hh := roundsLoop_head_facts oracle rng plan rem (rn + 1) _ t2
              rest hrest h0
            exact ⟨hh.1, hh.2.1, hh.2.2⟩
          | succ j =>
            have hj1 : j < rest.length := by simpa using hi1
            have hj2 : j + 1 < rest.length := by simpa using hi2
            have hh := ih (rn + 1) _ t2 rest hrest j hj1 hj2
            rcases hh.2.2 with ⟨ta, tb, hact2⟩
            refine ⟨hh.1, hh.2.1.trans (by omega), ta, tb, ?_⟩
            have heq : rn + 1 + j + 1 = rn + (j + 1) + 1 := by omega
            rw [← heq]
            exact hact2

/-- C6: for every run and for consecutive executed rounds `r` (index `i`)
and `r + 1` (index `i + 1`) of the trace, the seed set passed into round
`r + 1`'s generation is exactly the elite (top-K) set the ranker produced
at the end of round `r`, and round `r + 1`'s generated candidate list
contains that seed set's structure strings verbatim as its first
`min(len(seed), n)` entries. -/
theorem elite_seed_crosses_rounds (oracle : Oracle) (rng : ℕ → ℕ) (plan : Plan)
    (i : ℕ) (h1 : i < (runTrace oracle rng plan).length)
    (h2 : i + 1 < (runTrace oracle rng plan).length) :
    ((runTrace oracle rng plan).get ⟨i + 1, h2⟩).seedsUsed
      = ((runTrace oracle rng plan).get ⟨i, h1⟩).top ∧
    ((runTrace oracle rng plan).get ⟨i + 1, h2⟩).candidates.take
        (min (((runTrace oracle rng plan).get ⟨i, h1⟩).top.map Mol.smiles).length
          plan.candidates_per_round)
      = (((runTrace oracle rng plan).get ⟨i, h1⟩).top.map Mol.smiles).take
          (min (((runTrace oracle rng plan).get ⟨i, h1⟩).top.map Mol.smiles).length
            plan.candidates_per_round) := by
  revert h1 h2
  cases hl : roundsLoop oracle rng plan plan.rounds 1 [] 0 with
  | error e =>
    have htr : runTrace oracle rng plan = [] := by
      simp only [runTrace, hl]
      rfl
    rw [htr]
    intro h1 h2
    simp at h1
  | ok trace =>
    have htr : runTrace oracle rng plan = trace := by
      simp only [runTrace, hl]
      rfl
    rw [htr]
    intro h1 h2
    have hchain := roundsLoop_chain oracle rng plan plan.rounds 1 [] 0 trace hl
      i h1 h2
    refine ⟨hchain.1, ?_⟩
    rcases hchain.2.2 with ⟨ta, tb, hact⟩
    exact act_seed_verbatim rng ta plan.candidates_per_round _ _ _ _ hact (by omega)

theorem processCandidates_ok (oracle : Oracle)
    (hok : ∀ s, ∃ out, oracle s = Except.ok out) (mv : ℕ) (penalty : ℚ)
    (rn : ℕ) :
    ∀ cs, ∃ l, processCandidates oracle mv penalty rn cs = Except.ok l := by
  intro cs
  induction cs with
  | nil => exact ⟨[], rfl⟩
  | cons smiles rest ih =>
    rcases hok smiles with ⟨out, hout⟩
    rcases ih with ⟨tail, htail⟩
    cases hres : processCandidates oracle mv penalty rn (smiles :: rest) with
    | ok l => exact ⟨l, rfl⟩
    | error e =>
      exfalso
      simp only [processCandidates, hout, htail] at hres
      exact absurd hres (by simp)

theorem roundsLoop_ok (oracle : Oracle) (rng : ℕ → ℕ) (plan : Plan)
    (hok : ∀ s, ∃ out, oracle s = Except.ok out) :
    ∀ (rem rn : ℕ) (seeds : List Mol) (t : ℕ),
      ∃ trace, roundsLoop oracle rng plan rem rn seeds t = Except.ok trace := by
  intro rem
  induction rem with
  | zero => exact fun rn seeds t => ⟨[], rfl⟩
  | succ rem ih =>
    intro rn seeds t
    rcases GeneratorAgent.act_some_length rng t plan.candidates_per_round rn
      (seeds.map Mol.smiles) with ⟨cands, t2, hact, -⟩
    rcases processCandidates_ok oracle hok plan.max_violations
      plan.scoring_penalty rn cands with ⟨processed, hproc⟩
    rcases ih (rn + 1) ((RankerAgent.act processed plan.scoring_penalty
      plan.top_k).2) t2 with ⟨rest, hrest⟩
    cases hres : roundsLoop oracle rng plan (rem + 1) rn seeds t with
    | ok trace => exact ⟨trace, rfl⟩
    | error e =>
      exfalso
      simp only [roundsLoop, hact, hproc, hrest] at hres
      exact absurd hres (by simp)

/-- C7 (amended): an error that the oracle *returns* for a candidate —
invalidity or a per-candidate failure surfaced as `valid = False`, which is
how the chemistry tool reports every internal exception — is contained
within the round loop: that candidate is excluded from admission and
ranking exactly like an invalid structure, and the run still completes (it
never transitions to `failed`).  An oracle call that *raises*, by contrast,
escapes the per-candidate loop and fails the run (see the counterexample
theorem). -/
theorem returned_oracle_errors_contained (oracle : Oracle) (rng : ℕ → ℕ)
    (plan : Plan) (hok : ∀ s, ∃ out, oracle s = Except.ok out) :
    (AgenticPipeline.run oracle rng plan).status = "completed" ∧
    (∀ m ∈ (AgenticPipeline.run oracle rng plan).molecules,
      m.valid = true ∧ m.screening_result.passed = true) ∧
    (∀ rec ∈ runTrace oracle rng plan, ∀ m ∈ rec.processed,
      m.valid = true ∧ m.screening_result.passed = true) := by
  rcases roundsLoop_ok oracle rng plan hok plan.rounds 1 [] 0 with ⟨trace, hl⟩
  have htr : runTrace oracle rng plan = trace := by
    simp only [runTrace, hl]
    rfl
  have hgood := roundsLoop_good oracle rng plan plan.rounds 1 [] 0 trace
    (by simp) hl
  have hmol := run_molecules_of_ok oracle rng plan trace hl
  refine ⟨by simp [AgenticPipeline.run, hl], ?_, ?_⟩
  · intro m hm
    rw [hmol] at hm
    rcases mem_assignRanks 0 _ m hm with ⟨m0, hm0, k, rfl⟩
    have hm1 : m0 ∈ (trace.map RoundRec.ranked).flatten :=
      (pySortDesc_perm _).mem_iff.mp hm0
    rcases List.mem_flatten.mp hm1 with ⟨l, hlm, hml⟩
    rcases List.mem_map.mp hlm with ⟨rec, hrec, rfl⟩
    have hg := (hgood rec hrec).2.2.2.2.1 m0 hml
    exact ⟨hg.1, hg.2.1⟩
  · intro rec hrec m hm
    rw [htr] at hrec
    have hg := (hgood rec hrec).2.1 m hm
    exact ⟨hg.1, hg.2.1⟩

/-- C8: if the oracle call itself throws for every candidate (total oracle
outage, each thrown error carrying a nonempty message), any run with at
least one round and at least one candidate per round terminates with status
`failed` and a nonempty error message, and no molecule records are
persisted for the run — records are written only once, at the end of a
successful run, never incrementally. -/
theorem oracle_outage_fails_run_nothing_persisted (oracle : Oracle)
    (rng : ℕ → ℕ) (plan : Plan)
    (hfail : ∀ s, ∃ e, oracle s = Except.error e ∧ e ≠ "")
    (hrounds : 1 ≤ plan.rounds) (hcpr : 1 ≤ plan.candidates_per_round) :
    (AgenticPipeline.run oracle rng plan).status = "failed" ∧
    (∃ e, (AgenticPipeline.run oracle rng plan).errorMessage = some e ∧ e ≠ "") ∧
    (AgenticPipeline.run oracle rng plan).persisted = [] ∧
    (AgenticPipeline.run oracle rng plan).molecules = [] := by
  obtain ⟨rem, hrem⟩ : ∃ rem, plan.rounds = rem + 1 :=
    ⟨plan.rounds - 1, by omega⟩
  rcases GeneratorAgent.act_some_length rng 0 plan.candidates_per_round 1
    (([] : List Mol).map Mol.smiles) with ⟨cands, t2, hact, hlen⟩
  obtain ⟨c, cs, rfl⟩ : ∃ c cs, cands = c :: cs := by
    cases cands with
    | nil =>
      exfalso
      rw [List.length_nil] at hlen
      omega
    | cons c cs => exact ⟨c, cs, rfl⟩
  rcases hfail c with ⟨e, he, hne⟩
  have hloop : roundsLoop oracle rng plan plan.rounds 1 [] 0
      = Except.error e := by
    rw [hrem]
    simp only [roundsLoop, hact]
    simp only [processCandidates, he]
  refine ⟨?_, ⟨e, ?_, hne⟩, ?_, ?_⟩ <;> simp [AgenticPipeline.run, hloop]

/-- C10: the ranker's internal score recomputation
(`RankerAgent._calculate_score`) coincides with the screening module's
standalone `score` on every molecule record and penalty — both are
`round(qed - penalty * violations, 4)` over the same fields — and
consequently, inside any pipeline run, the ranker's re-scoring leaves every
admitted candidate's already-assigned score (hence the whole record)
unchanged. -/
theorem ranker_score_agrees_with_screening (oracle : Oracle) (rng : ℕ → ℕ)
    (plan : Plan) :
    (∀ (m : Mol) (p : ℚ),
      RankerAgent.calculate_score m p
        = MoleculeScreening.score m.properties m.screening_result p) ∧
    (∀ rec ∈ runTrace oracle rng plan, ∀ m ∈ rec.processed,
      RankerAgent.copyWithScore plan.scoring_penalty m = m) := by
  refine ⟨fun m p => rfl, ?_⟩
  intro rec hrec m hm
  cases hl : roundsLoop oracle rng plan plan.rounds 1 [] 0 with
  | error e =>
    have htr : runTrace oracle rng plan = [] := by
      simp only [runTrace, hl]
      rfl
    rw [htr] at hrec
    simp at hrec
  | ok trace =>
    have htr : runTrace oracle rng plan = trace := by
      simp only [runTrace, hl]
      rfl
    rw [htr] at hrec
    exact ((roundsLoop_good oracle rng plan plan.rounds 1 [] 0 trace
      (by simp) hl) rec hrec).2.1 m hm |>.2.2.2

/-- A fixed random tape for concrete runs. -/
def rngZero : ℕ → ℕ := fun _ => 0

/-- An oracle that accepts every structure with `qed = 0.5` and no
rule-relevant descriptors (so nothing ever violates a rule). -/
def oracleConst : Oracle :=
  fun _ => Except.ok { valid := true, properties := [("qed", 1/2)] }

/-- An oracle that raises for exactly one structure (the first base
molecule) and returns normally for every other. -/
def oracleBoom : Oracle :=
  fun s =>
    if s = "CC(C)Cc1ccc(cc1)C(C)C(O)=O" then Except.error "oracle failure"
    else Except.ok { valid := true, properties := [("qed", 1/2)] }

/-- A totally unavailable oracle: every call raises. -/
def oracleDown : Oracle := fun _ => Except.error "oracle unavailable"

/-- A small two-round plan. -/
def planTwoRounds : Plan :=
  { rounds := 2, candidates_per_round := 2, top_k := 1, max_violations := 1,
    scoring_penalty := 1/10 }

/-- A small one-round plan. -/
def planOneRound : Plan :=
  { rounds := 1, candidates_per_round := 2, top_k := 1, max_violations := 1,
    scoring_penalty := 1/10 }

deriving instance DecidableEq for Except

/-- C7, counterexample to the claim as stated: with an oracle that raises
for exactly one of the two generated candidates of the single round — it
returns normally for the other generated candidate,
`"CCC(C)Cc1ccc(cc1)C(C)C(O)=O"` — the exception escapes the round loop and
the run ends with status `failed`, so an error affecting a single
candidate's oracle evaluation *does* transition the run to the failed state
when the oracle raises rather than returns the error. -/
theorem single_candidate_raise_fails_run :
    (AgenticPipeline.run oracleBoom rngZero planOneRound).status = "failed" ∧
    oracleBoom "CCC(C)Cc1ccc(cc1)C(C)C(O)=O"
      = Except.ok { valid := true, properties := [("qed", 1/2)] } := by
  with_unfolding_all decide

/-- Witness for C7's amended theorem at a concrete oracle, tape and plan. -/
theorem returned_oracle_errors_contained_witness :
    (AgenticPipeline.run oracleConst rngZero planTwoRounds).status = "completed" ∧
    (∀ m ∈ (AgenticPipeline.run oracleConst rngZero planTwoRounds).molecules,
      m.valid = true ∧ m.screening_result.passed = true) ∧
    (∀ rec ∈ runTrace oracleConst rngZero planTwoRounds, ∀ m ∈ rec.processed,
      m.valid = true ∧ m.screening_result.passed = true) :=
  returned_oracle_errors_contained oracleConst rngZero planTwoRounds
    (fun _ => ⟨{ valid := true, properties := [("qed", 1/2)] }, rfl⟩)

/-- Witness for C8 at a concrete always-raising oracle. -/
theorem oracle_outage_witness :
    (AgenticPipeline.run oracleDown rngZero planOneRound).status = "failed" ∧
    (∃ e, (AgenticPipeline.run oracleDown rngZero planOneRound).errorMessage
        = some e ∧ e ≠ "") ∧
    (AgenticPipeline.run oracleDown rngZero planOneRound).persisted = [] ∧
    (AgenticPipeline.run oracleDown rngZero planOneRound).molecules = [] :=
  oracle_outage_fails_run_nothing_persisted oracleDown rngZero planOneRound
    (fun _ => ⟨"oracle unavailable", rfl, by decide⟩) (by decide) (by decide)

/-- Witness for C4 at a concrete tape and seed list. -/
theorem generator_returns_exactly_n_witness :
    ∃ cands t2, GeneratorAgent.act rngZero 0 2 1 [] = some (cands, t2) ∧
      cands.length = 2 :=
  generator_returns_exactly_n rngZero 0 2 1 [] (by decide)

/-- Witness for C6 at a concrete two-round run (consecutive rounds 1, 2). -/
theorem elite_seed_crosses_rounds_witness :
    ((runTrace oracleConst rngZero planTwoRounds).get
        ⟨0 + 1, by with_unfolding_all decide⟩).seedsUsed
      = ((runTrace oracleConst rngZero planTwoRounds).get
          ⟨0, by with_unfolding_all decide⟩).top ∧
    ((runTrace oracleConst rngZero planTwoRounds).get
        ⟨0 + 1, by with_unfolding_all decide⟩).candidates.take
        (min (((runTrace oracleConst rngZero planTwoRounds).get
            ⟨0, by with_unfolding_all decide⟩).top.map Mol.smiles).length
          planTwoRounds.candidates_per_round)
      = (((runTrace oracleConst rngZero planTwoRounds).get
          ⟨0, by with_unfolding_all decide⟩).top.map Mol.smiles).take
          (min (((runTrace oracleConst rngZero planTwoRounds).get
              ⟨0, by with_unfolding_all decide⟩).top.map Mol.smiles).length
            planTwoRounds.candidates_per_round) :=
  elite_seed_crosses_rounds oracleConst rngZero planTwoRounds 0
    (by with_unfolding_all decide) (by with_unfolding_all decide)

/-- Witness for C1 at a concrete completed two-round run. -/
theorem final_global_ranking_witness :
    List.Perm ((AgenticPipeline.run oracleConst rngZero planTwoRounds).molecules.map
        clearRank)
      (((runTrace oracleConst rngZero planTwoRounds).map RoundRec.processed).flatten) ∧
    List.Pairwise (fun a b => b.score ≤ a.score)
      (AgenticPipeline.run oracleConst rngZero planTwoRounds).molecules ∧
    (∀ c : ℚ,
      (((AgenticPipeline.run oracleConst rngZero planTwoRounds).molecules.map
          clearRank).filter fun m => decide (m.score = c))
        = ((((runTrace oracleConst rngZero planTwoRounds).map
            RoundRec.ranked).flatten).filter fun m => decide (m.score = c))) ∧
    (∀ (j : ℕ)
      (hj : j < (AgenticPipeline.run oracleConst rngZero planTwoRounds).molecules.length),
      (((AgenticPipeline.run oracleConst rngZero planTwoRounds).molecules).get
          ⟨j, hj⟩).rank = some (j + 1)) ∧
    (∀ m ∈ (AgenticPipeline.run oracleConst rngZero planTwoRounds).molecules,
      m.valid = true ∧ m.screening_result.passed = true) ∧
    (∀ rec ∈ runTrace oracleConst rngZero planTwoRounds, ∀ m ∈ rec.seedsUsed,
      m.valid = true ∧ m.screening_result.passed = true) :=
  final_global_ranking oracleConst rngZero planTwoRounds
    (by with_unfolding_all decide)
